import Mathlib

/-!
Shallow embedding of the content-reduction pipeline, the Python worker pool
and the tag cache of the `wgomg/itzamna` repository, with theorems settling
the stated claims about them.

Modelling conventions:
* Text is a `List Char`; a word is a `List Char` produced by whitespace
  splitting, mirroring Go's `strings.Fields`.
* Go `float64` score arithmetic is modelled over `ℚ`.  The two transcendental
  float functions used by the scorer (`math.Log1p` in the tf scorer and
  `math.Cos` in the position curve) are abstracted as explicit function
  parameters `log1p cosCurve : ℚ → ℚ`; every theorem below holds for all
  choices of these parameters, so nothing proved depends on their values.
  Rational division by zero yields 0 where the Go float code would produce
  NaN or Inf; no claim settled here depends on those degenerate score values.
* Go runtime faults (out-of-range indexing) are modelled by `Option`:
  a function returns `none` exactly where the Go code would fault.
* `slices.SortFunc` is an unstable comparison sort; it is modelled with
  `List.insertionSort`, a particular comparison sort.  All verified
  properties are independent of the order of tied elements.
-/

namespace Itzamna

/-- A word of the document: a run of non-whitespace characters. -/
abbrev Word := List Char

/-- Characters stripped by `utils.CleanUp` (the regexp character class
`[$€£¥¢%&*+=<>^|~@#\\_\[\]{}]` in `internal/utils`, `CleanUp`).  The brace
characters are written via their code points. -/
def bannedChars : List Char :=
  ['$', '€', '£', '¥', '¢', '%', '&', '*', '+', '=', '<', '>', '^', '|',
   '~', '@', '#', '\\', '_', '[', ']', Char.ofNat 123, Char.ofNat 125]

/-- Embedding of `utils.CleanUp`: remove every occurrence of the banned
characters (the regexp replaces each matched character by the empty string,
which is exactly a filter). -/
def cleanUp (s : List Char) : List Char :=
  s.filter (fun c => !(bannedChars.contains c))

/-- Whitespace recognized by Go's `strings.Fields` (`unicode.IsSpace` on the
Latin-1 range): tab, newline, vertical tab, form feed, carriage return,
space, next line, and no-break space. -/
def isSpace (c : Char) : Bool :=
  c == ' ' || c == '\t' || c == '\n' || c == Char.ofNat 11 ||
  c == Char.ofNat 12 || c == '\r' || c == Char.ofNat 133 || c == Char.ofNat 160

/-- Splits a character list into the maximal runs of characters satisfying
`keep`; `acc` is the reversed current run.  This single splitter serves both
`strings.Fields` (keep = not whitespace) and the chunk tokenizer's
`regexp.Split` on `[^a-zA-Z0-9]+` (keep = alphanumeric, empty pieces
discarded as in `createChunks`). -/
def splitRunsAux (keep : Char → Bool) : List Char → Word → List Word
  | [], acc => if acc.isEmpty then [] else [acc.reverse]
  | c :: cs, acc =>
    if keep c then
      splitRunsAux keep cs (c :: acc)
    else
      if acc.isEmpty then splitRunsAux keep cs []
      else acc.reverse :: splitRunsAux keep cs []

def splitRuns (keep : Char → Bool) (s : List Char) : List Word :=
  splitRunsAux keep s []

/-- Embedding of `strings.Fields`: the maximal non-whitespace runs. -/
def fields (s : List Char) : List Word :=
  splitRuns (fun c => !isSpace c) s

/-- Embedding of `utils.CountWords`: the number of fields of the text. -/
def countWords (s : List Char) : Nat :=
  (fields s).length

/-- Alphanumeric characters, the class `[a-zA-Z0-9]` used by the tokenizer
regexp in `createChunks`. -/
def isAlnum (c : Char) : Bool :=
  ('a' ≤ c && c ≤ 'z') || ('A' ≤ c && c ≤ 'Z') || ('0' ≤ c && c ≤ '9')

/-- Tokenization of one word in `createChunks`: split on runs of
non-alphanumeric characters, discarding empty tokens. -/
def tokenizeWord (w : Word) : List Word :=
  splitRuns isAlnum w

/-- Embedding of Go's `math.Round` (round half away from zero) on an exact
rational. -/
def goRound (q : ℚ) : Int :=
  if 0 ≤ q then ⌊q + 1/2⌋ else -⌊-q + 1/2⌋

/-- Embedding of `utils.EstimateTokensFromWords`:
`int(math.Round(float64(wordCount) * 1.3))`, with the float literal 1.3
modelled by the exact rational 13/10. -/
def estimateTokensFromWords (wordCount : Nat) : Int :=
  goRound ((wordCount : ℚ) * (13/10))

/-- Embedding of `processor.EstimateTokens`: clean the content, count its
words, scale by the tokens-per-word estimate. -/
def estimateTokens (content : List Char) : Int :=
  estimateTokensFromWords (countWords (cleanUp content))

/-- Embedding of `processor.ShouldReduceContent`. -/
def shouldReduceContent (estimatedTokens thresholdTokens : Int) : Bool :=
  thresholdTokens < estimatedTokens

/-- Embedding of `config.ReductionConfig` (the caller-supplied reduction
configuration). -/
structure ReductionConfig where
  thresholdTokens : Int
  chunkSize : Nat
  overlap : Nat
  targetWords : Nat
  tfWeight : ℚ
  graphWeight : ℚ
  positionWeight : ℚ
  diversityThreshold : ℚ
  minPenalty : ℚ
deriving Repr, DecidableEq

/-- Embedding of `processor.Chunk`.  The Go `TokenFrequencies` map is
represented by the association list pairing each distinct token with its
frequency; `UniqueTokens` (the map's key set, in unspecified order) is the
deduplicated token list. -/
structure Chunk where
  id : Nat
  normalizedPosition : ℚ
  rawText : List Char
  words : List Word
  startWordIndex : Nat
  endWordIndex : Nat
  wordCount : Nat
  tokens : List Word
  uniqueTokens : List Word
  tokenFrequencies : List (Word × Nat)
  tfScore : ℚ := 0
  normalizedTFScore : ℚ := 0
  graphScore : ℚ := 0
  normalizedGraphScore : ℚ := 0
  finalScore : ℚ := 0
deriving Repr, DecidableEq

/-- Default chunk used for out-of-range list indexing in index-driven loops
(the Go code only indexes in range). -/
def emptyChunk : Chunk :=
  { id := 0, normalizedPosition := 0, rawText := [], words := [],
    startWordIndex := 0, endWordIndex := 0, wordCount := 0, tokens := [],
    uniqueTokens := [], tokenFrequencies := [] }

/-- Embedding of `strings.Join` with a one-character separator. -/
def joinSep (sep : Char) : List Word → List Char
  | [] => []
  | [w] => w
  | w :: ws => w ++ sep :: joinSep sep ws

/-- Construction of chunk number `i` in `createChunks`: the window of
`chunkSize` words starting at `i * stepSize`, its tokens, token frequencies
and unique tokens. -/
def mkChunk (words : List Word) (chunkSize stepSize totalChunks i : Nat) : Chunk :=
  let startWordIndex := i * stepSize
  let endWordIndex := startWordIndex + chunkSize
  let chunkWords := (words.drop startWordIndex).take chunkSize
  let tokens := chunkWords.flatMap tokenizeWord
  let uniq := tokens.dedup
  { id := i,
    normalizedPosition := (i : ℚ) / (totalChunks : ℚ),
    rawText := joinSep ' ' chunkWords,
    words := chunkWords,
    startWordIndex := startWordIndex,
    endWordIndex := endWordIndex,
    wordCount := chunkWords.length,
    tokens := tokens,
    uniqueTokens := uniq,
    tokenFrequencies := uniq.map (fun t => (t, tokens.count t)) }

/-- Embedding of `processor.createChunks`.  `stepSize` and `totalChunks` are
computed in Go `int` arithmetic (`Int.tdiv` is Go's truncated division); the
`for i := range totalChunks` loop performs `max totalChunks 0` iterations,
which is `totalChunks.toNat`.  Go faults on a zero step (division by zero);
every theorem below assumes `overlap < chunkSize`, where the step is
positive. -/
def createChunks (words : List Word) (chunkSize overlap : Nat) : List Chunk :=
  let stepSize : Int := (chunkSize : Int) - (overlap : Int)
  let totalChunks : Int := ((words.length : Int) - (overlap : Int)).tdiv stepSize
  (List.range totalChunks.toNat).map
    (mkChunk words chunkSize stepSize.toNat totalChunks.toNat)

/-- Embedding of `processor.jaccardSimilarity`: the code builds a set from
`a` and counts the elements of `b` lying in it; the union size is
`|a| + |b| - intersection`.  Inputs are unique-token lists. -/
def jaccardSimilarity (a b : List Word) : ℚ :=
  if a.isEmpty && b.isEmpty then 0
  else
    let intersection := (b.filter (fun v => a.contains v)).length
    let union := a.length + b.length - intersection
    (intersection : ℚ) / (union : ℚ)

/-- Lookup in the token-frequency association list, mirroring a Go map read
(missing key reads as 0). -/
def tfLookup (freqs : List (Word × Nat)) (t : Word) : Nat :=
  (freqs.lookup t).getD 0

/-- Embedding of `processor.tfScores`.  `globalTokenFreq[token]` accumulates
each chunk's frequency for the token; each chunk's raw score is the sum over
its frequency entries of `log1p(globalFreq) * localFreq`, divided by its
token count, and the normalized score divides by the sum of all raw scores
(no zero guard in the source: over ℚ a zero denominator yields 0 where Go
floats would yield NaN). -/
def tfScores (log1p : ℚ → ℚ) (chunks : List Chunk) : List Chunk :=
  let globalFreq : Word → Nat := fun t =>
    (chunks.map (fun ch => tfLookup ch.tokenFrequencies t)).sum
  let withTf := chunks.map (fun ch =>
    let totalFreq : ℚ :=
      (ch.tokenFrequencies.map
        (fun p => log1p ((globalFreq p.1 : ℚ)) * (p.2 : ℚ))).sum
    { ch with tfScore := totalFreq / (ch.tokens.length : ℚ) })
  let sumTF := (withTf.map (fun ch => ch.tfScore)).sum
  withTf.map (fun ch => { ch with normalizedTFScore := ch.tfScore / sumTF })

/-- Embedding of `processor.buildGraph`'s adjacency matrix: 1 on the
diagonal, Jaccard similarity of the unique-token sets off the diagonal (the
source stores a similarity only when positive; the stored value is the same
since the similarity is never negative, so the branch is kept verbatim). -/
def buildAdjacency (chunks : List Chunk) : List (List ℚ) :=
  (List.range chunks.length).map (fun i =>
    (List.range chunks.length).map (fun j =>
      if i = j then (1 : ℚ)
      else
        let s := jaccardSimilarity
          ((chunks.getD i emptyChunk).uniqueTokens)
          ((chunks.getD j emptyChunk).uniqueTokens)
        if 0 < s then s else 0))

/-- One pass of `processor.weightedPageRank`'s main loop, recursing on the
remaining iteration count.  On convergence (`totalChange < tolerance`) the
Go loop breaks before assigning `scores = newScores`, so the previous scores
are returned, exactly as here. -/
def pagerankLoop (adj : List (List ℚ)) (outgoingSums : List ℚ)
    (damping tolerance : ℚ) : Nat → List ℚ → List ℚ
  | 0, scores => scores
  | k + 1, scores =>
    let N := adj.length
    let randomComponent := (1 - damping) / (N : ℚ)
    let newScores := (List.range N).map (fun i =>
      let linkComponent := ((List.range N).map (fun j =>
        if i = j then 0
        else
          let weight := (adj.getD j []).getD i 0
          if 0 < weight ∧ 0 < outgoingSums.getD j 0 then
            scores.getD j 0 * (weight / outgoingSums.getD j 0)
          else 0)).sum
      randomComponent + damping * linkComponent)
    let totalChange := ((List.range N).map (fun i =>
      |newScores.getD i 0 - scores.getD i 0|)).sum
    if totalChange < tolerance then scores
    else pagerankLoop adj outgoingSums damping tolerance k newScores

/-- Embedding of `processor.weightedPageRank`: uniform initial scores,
precomputed outgoing weight sums, at most `maxIterations` passes. -/
def weightedPageRank (adj : List (List ℚ)) (damping : ℚ)
    (maxIterations : Nat) (tolerance : ℚ) : List ℚ :=
  let N := adj.length
  let scores := List.replicate N ((1 : ℚ) / (N : ℚ))
  let outgoingSums := adj.map (fun row => row.sum)
  pagerankLoop adj outgoingSums damping tolerance maxIterations scores

/-- Embedding of `processor.calculateGraphScores`: run the weighted
page-rank (damping 0.85, 100 iterations, tolerance 1e-4) over the chunk
similarity graph, assign `scores[i]` to chunk `i`, and normalize when the
score sum is positive. -/
def calculateGraphScores (chunks : List Chunk) : List Chunk :=
  let adj := buildAdjacency chunks
  let scores := weightedPageRank adj (85/100) 100 (1/10000)
  let withG := (List.range chunks.length).map (fun i =>
    { chunks.getD i emptyChunk with graphScore := scores.getD i 0 })
  let sumScores : ℚ := (withG.map (fun ch => ch.graphScore)).sum
  if 0 < sumScores then
    withG.map (fun ch =>
      { ch with normalizedGraphScore := ch.graphScore / sumScores })
  else withG

/-- The per-chunk position score of `processor.calculateFinalScore`:
`score := |cos(pos·π·2)|` rescaled to the 0.5–1.0 range; `cosCurve`
abstracts the float cosine of `pos·π·2`. -/
def positionScore (cosCurve : ℚ → ℚ) (ch : Chunk) : ℚ :=
  let score := |cosCurve ch.normalizedPosition|
  1/2 + score * (1/2)

/-- Embedding of `processor.calculateFinalScore`: position scores are
normalized to sum 1 (guarding a zero sum), and the final score is the
weighted sum of the three normalized components. -/
def calculateFinalScore (cosCurve : ℚ → ℚ) (chunks : List Chunk)
    (tfWeight graphWeight positionWeight : ℚ) : List Chunk :=
  let positionScores := chunks.map (positionScore cosCurve)
  let sumPos := positionScores.sum
  chunks.map (fun ch =>
    let normalizedPosScore :=
      if 0 < sumPos then positionScore cosCurve ch / sumPos else 0
    { ch with finalScore :=
        tfWeight * ch.normalizedTFScore +
        graphWeight * ch.normalizedGraphScore +
        positionWeight * normalizedPosScore })

/-- The comparison order of `processor.cmpChunk`
(`cmp.Compare(b.FinalScore, a.FinalScore)`): descending final score. -/
def scoreOrder (a b : Chunk) : Prop :=
  b.finalScore ≤ a.finalScore

instance : DecidableRel scoreOrder := fun a b =>
  inferInstanceAs (Decidable (b.finalScore ≤ a.finalScore))

/-- Model of `slices.SortFunc(remainingChunks, cmpChunk)`. -/
def sortByScore (l : List Chunk) : List Chunk :=
  List.insertionSort scoreOrder l

/-- The id order of the final `slices.SortFunc` in `ReduceContent`. -/
def idOrder (a b : Chunk) : Prop :=
  a.id ≤ b.id

instance : DecidableRel idOrder := fun a b =>
  inferInstanceAs (Decidable (a.id ≤ b.id))

/-- Model of `slices.SortFunc(selectedChunks, by id)`. -/
def sortById (l : List Chunk) : List Chunk :=
  List.insertionSort idOrder l

/-- The diversity-penalty update applied to one remaining chunk in the
selection loop of `ReduceContent` (lines 46–58): a similarity above the
literal threshold 0.15 multiplies the final score by
`1 − 2·similarity`, floored at the literal 0.1.  The caller-supplied
`cfg.DiversityThreshold` and `cfg.MinPenalty` are not consulted by the
source. -/
def penalizeOne (selected : Chunk) (c : Chunk) : Chunk :=
  let similarity := jaccardSimilarity selected.uniqueTokens c.uniqueTokens
  if 15/100 < similarity then
    let penalty : ℚ := 1 - similarity * 2
    let penalty := if penalty < 1/10 then (1 : ℚ)/10 else penalty
    { c with finalScore := c.finalScore * penalty }
  else c

/-- The inner `for i := range remainingChunks` pass of the selection loop. -/
def applyDiversityPenalty (selected : Chunk) (remaining : List Chunk) : List Chunk :=
  remaining.map (penalizeOne selected)

/-- A config-driven penalty pass following the specification's words
(threshold and floor taken from the reduction configuration), for comparison
with `applyDiversityPenalty`, the pass the source implements. -/
def applyDiversityPenaltySpec (diversityThreshold minPenalty : ℚ)
    (selected : Chunk) (remaining : List Chunk) : List Chunk :=
  remaining.map (fun c =>
    let similarity := jaccardSimilarity selected.uniqueTokens c.uniqueTokens
    if diversityThreshold < similarity then
      let penalty := max (1 - 2 * similarity) minPenalty
      { c with finalScore := c.finalScore * penalty }
    else c)

/-- The greedy selection loop of `ReduceContent` (lines 40–62): while chunks
remain and the accumulated word count is below the target, move the
top-scoring remaining chunk into the selection, penalize similar remaining
chunks, and re-sort.  The loop consumes exactly one chunk per iteration, so
it is made structurally recursive on a fuel argument that equals the length
of the remaining list at every call (penalizing and re-sorting preserve the
length); the zero-fuel branch on a non-empty list is never reached. -/
def selectLoopFuel (target : Nat) :
    Nat → List Chunk → List Chunk → Nat → List Chunk × Nat
  | _, [], selected, currentWordCount => (selected, currentWordCount)
  | 0, _ :: _, selected, currentWordCount => (selected, currentWordCount)
  | fuel + 1, sel :: rest, selected, currentWordCount =>
    if currentWordCount < target then
      selectLoopFuel target fuel (sortByScore (applyDiversityPenalty sel rest))
        (selected ++ [sel]) (currentWordCount + sel.wordCount)
    else (selected, currentWordCount)

def selectLoop (target : Nat) (remaining selected : List Chunk)
    (currentWordCount : Nat) : List Chunk × Nat :=
  selectLoopFuel target remaining.length remaining selected currentWordCount

/-- The diverse-selection stage of `ReduceContent` (lines 29–62): chunk 0 is
kept unconditionally, the remaining chunks are sorted by descending final
score, and the loop runs.  Go faults indexing `chunks[0]` of an empty chunk
slice, modelled by `none`. -/
def selectChunks (chunks : List Chunk) (targetWordCount : Nat) : Option (List Chunk) :=
  match chunks with
  | [] => none
  | c0 :: rest =>
    some (selectLoop targetWordCount (sortByScore rest) [c0] c0.wordCount).1

/-- The reconstruction stage of `ReduceContent` (lines 64–75): sort the
selection by chunk id, emit the first chunk's raw text, and for each later
chunk a line break followed by its words after the first `overlap`, joined
by spaces. -/
def reconstructContent (selected : List Chunk) (overlap : Nat) : Option (List Char) :=
  match sortById selected with
  | [] => none
  | c0 :: rest =>
    some (c0.rawText ++
      rest.flatMap (fun ch => '\n' :: joinSep ' ' (ch.words.drop overlap)))

/-- Embedding of `processor.ReduceContent`: clean, split into words, chunk,
score, select, reconstruct.  `log1p` and `cosCurve` abstract the two float
transcendentals (see the module docstring); `none` marks the runtime fault
the Go code hits when no chunk exists. -/
def reduceContent (log1p cosCurve : ℚ → ℚ) (content : List Char)
    (cfg : ReductionConfig) : Option (List Char) :=
  let cleanedUpContent := cleanUp content
  let wordsArray := fields cleanedUpContent
  let chunks := createChunks wordsArray cfg.chunkSize cfg.overlap
  let chunks := tfScores log1p chunks
  let chunks := calculateGraphScores chunks
  let chunks := calculateFinalScore cosCurve chunks
    cfg.tfWeight cfg.graphWeight cfg.positionWeight
  match selectChunks chunks cfg.targetWords with
  | none => none
  | some selected => reconstructContent selected cfg.overlap

/-- The reduction path of `api.Handler.Process`: estimate tokens, and reduce
exactly when the estimate exceeds the configured threshold, otherwise pass
the content through unchanged. -/
def llmContentFor (log1p cosCurve : ℚ → ℚ) (content : List Char)
    (cfg : ReductionConfig) : Option (List Char) :=
  let estimatedTokens := estimateTokens content
  if shouldReduceContent estimatedTokens cfg.thresholdTokens then
    reduceContent log1p cosCurve content cfg
  else some content

/-! Worker pool models (`internal/semantic`, the Python worker pool). -/

/-- The fallible external effects touched by `PythonWorkerPool.Initialize`:
the five sequential steps of `setupEnvironment` and, for each worker id, the
outcome of `startWorker` (launch plus ready handshake).  `none` is success;
`some e` carries the error text. -/
structure PoolWorld where
  mkdirErr : Option String
  extractErr : Option String
  checkPythonErr : Option String
  createVenvErr : Option String
  installErr : Option String
  startErr : Nat → Option String

/-- Embedding of `PythonWorkerPool.setupEnvironment`: the five steps run in
order and the first failure is returned with its wrapping message. -/
def setupEnvironment (w : PoolWorld) : Option String :=
  match w.mkdirErr with
  | some e => some ("failed to create config directory: " ++ e)
  | none =>
    match w.extractErr with
    | some e => some ("failed to extract script: " ++ e)
    | none =>
      match w.checkPythonErr with
      | some e => some ("python check failed: " ++ e)
      | none =>
        match w.createVenvErr with
        | some e => some ("failed to create venv: " ++ e)
        | none =>
          match w.installErr with
          | some e => some ("failed to install requirements: " ++ e)
          | none => none

/-- Embedding of `PythonWorkerPool.Initialize`: run `setupEnvironment`,
returning its error if any; then spawn one `runWorker` goroutine per worker
id and return success.  The spawned goroutines' startup outcomes do not flow
into the return value. -/
def initializePool (w : PoolWorld) (workerCount : Nat) : Option String :=
  match setupEnvironment w with
  | some e => some ("failed to setup environment: " ++ e)
  | none => none

/-- The workers that end up serving the queue after initialization: a
`runWorker` goroutine whose `startWorker` fails logs the error and returns,
leaving no worker for that id. -/
def activeWorkers (w : PoolWorld) (workerCount : Nat) : List Nat :=
  (List.range workerCount).filter (fun i => (w.startErr i).isNone)

/-- A worker response line as seen by `PythonWorker.processTask` after one
request is written: a parsed `PythonResponse` (whose `error` field is the
empty string when the JSON `error` was null or absent, Go's zero value), a
line that fails to unmarshal, or a closed stdout. -/
inductive PyLine
  | parsed (suggestedTags : List String) (error : String)
  | malformed
  | closed
deriving Repr, DecidableEq

/-- Embedding of the response handling of `PythonWorker.processTask`: a
malformed line is a parse error, a response with a non-empty `error` field
fails with `python error: <error>`, otherwise the suggested tags are
delivered; a closed stdout is the `stdout closed` error.  (The request
write, which can also fail with an infrastructure error, is elided: the
claims below concern the response path.) -/
def processTask : PyLine → Except String (List String)
  | .malformed => .error "parse response"
  | .closed => .error "stdout closed"
  | .parsed tags err =>
    if err ≠ "" then .error ("python error: " ++ err) else .ok tags

/-- Embedding of the task loop of `PythonWorkerPool.runWorker` (lines
135–140), for one worker and the response line each successive task elicits:
on success the task is resolved with its tags and the loop continues; on any
`processTask` error the task is resolved with the error and the goroutine
returns, so no later task is served by this worker. -/
def runWorkerTasks : List PyLine → List (Except String (List String))
  | [] => []
  | line :: rest =>
    match processTask line with
    | .ok tags => .ok tags :: runWorkerTasks rest
    | .error e => [.error e]

/-- Observable pool-level actions used to model what `Initialize` and
`HealthCheck` do to the shared task queue. -/
inductive PoolAction
  | spawnWorker (id : Nat)
  | enqueue (text : String) (existingTags : List String)
deriving Repr, DecidableEq

def PoolAction.isEnqueue : PoolAction → Bool
  | .enqueue _ _ => true
  | _ => false

/-- The queue-visible trace of `PythonWorkerPool.Initialize` (lines 90–104):
one goroutine spawn per worker id and nothing else — in particular, no task
is written to the task queue during initialization. -/
def initializeActions (workerCount : Nat) : List PoolAction :=
  (List.range workerCount).map PoolAction.spawnWorker

/-- The tasks enqueued during pool initialization. -/
def enqueuedDuringInit (workerCount : Nat) : List PoolAction :=
  (initializeActions workerCount).filter PoolAction.isEnqueue

/-- The queue-visible trace of `PythonWorkerPool.HealthCheck` (lines
413–430): a single synthetic task with a fixed three-name tag list,
submitted to the shared queue.  `HealthCheck` is not invoked by `Initialize`
nor by the `semantic.NewMatcher` factory. -/
def healthCheckActions : List PoolAction :=
  [PoolAction.enqueue "test document for health check"
    ["test", "document", "invoice"]]

/-! Tag cache model (`internal/utils`, `TagsCache`). -/

/-- Embedding of `utils.CacheItem`; `lastAccess` timestamps are abstract
instants. -/
structure CacheItem where
  value : String
  hits : Nat
  lastAccess : Nat
deriving Repr, DecidableEq

/-- Embedding of `utils.TagsCache`: the map is modelled as a function from
tag name to an optional item. -/
structure TagsCache where
  items : String → Option CacheItem
  hits : Nat
  misses : Nat

/-- Embedding of `TagsCache.GetMissingAndAdd`: process the keys in order;
an absent key is appended to the missing list, counted as a miss and
inserted with zero hits; a present key is counted as a hit and its item's
hit counter and last access are bumped.  `now` abstracts `time.Now()`. -/
def getMissingAndAdd (c : TagsCache) (keys : List String) (now : Nat) :
    List String × TagsCache :=
  match keys with
  | [] => ([], c)
  | key :: rest =>
    match c.items key with
    | none =>
      let c1 : TagsCache :=
        { items := fun k => if k = key then some ⟨key, 0, now⟩ else c.items k,
          hits := c.hits,
          misses := c.misses + 1 }
      let r := getMissingAndAdd c1 rest now
      (key :: r.1, r.2)
    | some item =>
      let c1 : TagsCache :=
        { items := fun k =>
            if k = key then
              some { item with hits := item.hits + 1, lastAccess := now }
            else c.items k,
          hits := c.hits + 1,
          misses := c.misses }
      getMissingAndAdd c1 rest now

/-! Chunking arithmetic. -/

lemma tdiv_nonpos_of_nonpos_of_nonneg {a b : Int} (ha : a ≤ 0) (hb : 0 ≤ b) :
    a.tdiv b ≤ 0 := by
  cases a with
  | ofNat m =>
    have hm : m = 0 := by
      simp only [Int.ofNat_eq_natCast] at ha
      omega
    subst hm
    rw [show Int.ofNat 0 = 0 from rfl, Int.zero_tdiv]
  | negSucc m =>
    cases b with
    | ofNat n =>
      have hdef : (Int.negSucc m).tdiv (Int.ofNat n) = -Int.ofNat (m.succ / n) := rfl
      rw [hdef]
      exact neg_nonpos.mpr (Int.ofNat_nonneg _)
    | negSucc n =>
      exact absurd hb (not_le.mpr (Int.negSucc_lt_zero n))

/-- The Go `totalChunks` computation agrees with natural-number division of
the truncated difference: for fewer than `overlap` words the Go value is
non-positive and the loop runs zero times, matching `(N - O) / (C - O) = 0`
over ℕ. -/
lemma goTotalChunks_eq (N C O : Nat) (h : O < C) :
    ((((N : Int) - (O : Int)).tdiv ((C : Int) - (O : Int))).toNat) =
      (N - O) / (C - O) := by
  rcases le_or_lt O N with hle | hlt
  · have h1 : (N : Int) - (O : Int) = ((N - O : Nat) : Int) := by
      omega
    have h2 : (C : Int) - (O : Int) = ((C - O : Nat) : Int) := by
      omega
    rw [h1, h2, ← Int.ofNat_tdiv]
    exact Int.toNat_ofNat _
  · have h1 : (N : Int) - (O : Int) ≤ 0 := by omega
    have h2 : (0 : Int) ≤ (C : Int) - (O : Int) := by omega
    have h3 := tdiv_nonpos_of_nonpos_of_nonneg h1 h2
    rw [Int.toNat_of_nonpos h3]
    have h4 : N - O = 0 := by omega
    rw [h4, Nat.zero_div]

lemma stepSize_toNat (C O : Nat) (h : O < C) :
    (((C : Int) - (O : Int)).toNat) = C - O := by
  omega

lemma createChunks_eq (words : List Word) (C O : Nat) (h : O < C) :
    createChunks words C O =
      (List.range ((words.length - O) / (C - O))).map
        (mkChunk words C (C - O) ((words.length - O) / (C - O))) := by
  simp only [createChunks]
  rw [goTotalChunks_eq _ _ _ h, stepSize_toNat _ _ h]

lemma createChunks_length (words : List Word) (C O : Nat) (h : O < C) :
    (createChunks words C O).length = (words.length - O) / (C - O) := by
  rw [createChunks_eq _ _ _ h]
  simp

lemma createChunks_get (words : List Word) (C O : Nat) (h : O < C)
    (i : Nat) (hi : i < (createChunks words C O).length) :
    (createChunks words C O).get ⟨i, hi⟩ =
      mkChunk words C (C - O) ((words.length - O) / (C - O)) i := by
  have hl := createChunks_length words C O h
  have hi2 : i < (words.length - O) / (C - O) := hl ▸ hi
  simp [createChunks_eq _ _ _ h]

lemma mkChunk_startWordIndex (words : List Word) (C s n i : Nat) :
    (mkChunk words C s n i).startWordIndex = i * s := rfl

lemma mkChunk_endWordIndex (words : List Word) (C s n i : Nat) :
    (mkChunk words C s n i).endWordIndex = i * s + C := rfl

lemma mkChunk_words (words : List Word) (C s n i : Nat) :
    (mkChunk words C s n i).words = (words.drop (i * s)).take C := rfl

lemma createChunks_nil_of_short (words : List Word) (C O : Nat)
    (h : O < C) (hN : words.length < C) : createChunks words C O = [] := by
  apply List.eq_nil_of_length_eq_zero
  rw [createChunks_length _ _ _ h]
  exact Nat.div_eq_of_lt (by omega)

/-- C6 — For every word sequence of length N and every valid
chunk-size/overlap pair (O < C), chunking uses step C − O, produces exactly
(N − O) / (C − O) chunks (the floor formula, with subtraction truncated at
zero: for N < O both the Go loop count and the formula are zero), and chunk
i spans words [i·step, i·step + C), so consecutive chunks start exactly one
step apart. -/
theorem c6_chunking_arithmetic (words : List Word) (C O : Nat) (h : O < C) :
    (createChunks words C O).length = (words.length - O) / (C - O) ∧
    (∀ i (hi : i < (createChunks words C O).length),
      ((createChunks words C O).get ⟨i, hi⟩).startWordIndex = i * (C - O) ∧
      ((createChunks words C O).get ⟨i, hi⟩).endWordIndex = i * (C - O) + C ∧
      ((createChunks words C O).get ⟨i, hi⟩).words =
        (words.drop (i * (C - O))).take C) ∧
    (∀ i (hi : i + 1 < (createChunks words C O).length),
      ((createChunks words C O).get ⟨i + 1, hi⟩).startWordIndex =
        ((createChunks words C O).get ⟨i, Nat.lt_of_succ_lt hi⟩).startWordIndex
          + (C - O)) := by
  refine ⟨createChunks_length _ _ _ h, ?_, ?_⟩
  · intro i hi
    rw [createChunks_get _ _ _ h i hi]
    exact ⟨rfl, rfl, rfl⟩
  · intro i hi
    rw [createChunks_get _ _ _ h (i + 1) hi,
      createChunks_get _ _ _ h i (Nat.lt_of_succ_lt hi)]
    simp [mkChunk_startWordIndex]
    ring

/-- Witness for C6 at a concrete input: three one-letter words, chunk size
2, overlap 1 produce two chunks with the stated geometry. -/
theorem c6_chunking_arithmetic_witness :
    (createChunks [['a'], ['b'], ['c']] 2 1).length = (3 - 1) / (2 - 1) ∧
    (∀ i (hi : i < (createChunks [['a'], ['b'], ['c']] 2 1).length),
      ((createChunks [['a'], ['b'], ['c']] 2 1).get ⟨i, hi⟩).startWordIndex =
        i * (2 - 1) ∧
      ((createChunks [['a'], ['b'], ['c']] 2 1).get ⟨i, hi⟩).endWordIndex =
        i * (2 - 1) + 2 ∧
      ((createChunks [['a'], ['b'], ['c']] 2 1).get ⟨i, hi⟩).words =
        (([['a'], ['b'], ['c']] : List Word).drop (i * (2 - 1))).take 2) ∧
    (∀ i (hi : i + 1 < (createChunks [['a'], ['b'], ['c']] 2 1).length),
      ((createChunks [['a'], ['b'], ['c']] 2 1).get ⟨i + 1, hi⟩).startWordIndex =
        ((createChunks [['a'], ['b'], ['c']] 2 1).get
          ⟨i, Nat.lt_of_succ_lt hi⟩).startWordIndex + (2 - 1)) := by
  have h := c6_chunking_arithmetic [['a'], ['b'], ['c']] 2 1 (by decide)
  simpa using h

/-! Behaviour of the pipeline on an empty chunk list (C1). -/

lemma tfScores_nil (l : ℚ → ℚ) : tfScores l [] = [] := by
  simp [tfScores]

lemma calculateGraphScores_nil : calculateGraphScores [] = [] := by
  simp [calculateGraphScores]

lemma calculateFinalScore_nil (g : ℚ → ℚ) (w1 w2 w3 : ℚ) :
    calculateFinalScore g [] w1 w2 w3 = [] := by
  simp [calculateFinalScore]

lemma selectChunks_nil (t : Nat) : selectChunks [] t = none := rfl

lemma reduceContent_none_of_short (l g : ℚ → ℚ) (content : List Char)
    (cfg : ReductionConfig) (hvalid : cfg.overlap < cfg.chunkSize)
    (hshort : (fields (cleanUp content)).length < cfg.chunkSize) :
    reduceContent l g content cfg = none := by
  have hnil := createChunks_nil_of_short (fields (cleanUp content))
    cfg.chunkSize cfg.overlap hvalid hshort
  simp only [reduceContent, hnil, tfScores_nil, calculateGraphScores_nil,
    calculateFinalScore_nil, selectChunks_nil]

/-- C1 — code bug: when the cleaned word sequence is shorter than the chunk
size (and the token estimate still exceeds the reduction threshold, so the
handler takes the reduction path), the chunking stage does produce zero
chunks, but `ReduceContent` then indexes `chunks[0]` on the empty chunk
slice and faults (`none`) instead of returning the input text unchanged as
the claim (and the spec's degenerate-case rule) requires. -/
theorem c1_short_input_faults_instead_of_passthrough (l g : ℚ → ℚ)
    (content : List Char) (cfg : ReductionConfig)
    (hvalid : cfg.overlap < cfg.chunkSize)
    (hshort : (fields (cleanUp content)).length < cfg.chunkSize)
    (htrigger : shouldReduceContent (estimateTokens content)
      cfg.thresholdTokens = true) :
    createChunks (fields (cleanUp content)) cfg.chunkSize cfg.overlap = [] ∧
    llmContentFor l g content cfg = none := by
  refine ⟨createChunks_nil_of_short _ _ _ hvalid hshort, ?_⟩
  simp only [llmContentFor, htrigger, if_true]
  exact reduceContent_none_of_short l g content cfg hvalid hshort

/-- The failing configuration for C1: a low reduction threshold with the
default chunk geometry. -/
def cfgC1 : ReductionConfig :=
  { thresholdTokens := 1, chunkSize := 150, overlap := 15,
    targetWords := 1150, tfWeight := 2/5, graphWeight := 2/5,
    positionWeight := 1/5, diversityThreshold := 3/20, minPenalty := 1/10 }

/-- The failing input for C1: a two-word document. -/
def contentC1 : List Char := ['h', 'i', ' ', 'y', 'o']

/-- Witness for C1 at the failing input: the hypotheses hold concretely and
the pipeline faults. -/
theorem c1_short_input_faults_instead_of_passthrough_witness :
    cfgC1.overlap < cfgC1.chunkSize ∧
    (fields (cleanUp contentC1)).length < cfgC1.chunkSize ∧
    shouldReduceContent (estimateTokens contentC1) cfgC1.thresholdTokens = true ∧
    (createChunks (fields (cleanUp contentC1)) cfgC1.chunkSize cfgC1.overlap = [] ∧
      llmContentFor (fun _ => 0) (fun _ => 0) contentC1 cfgC1 = none) :=
  ⟨by decide, by decide, by with_unfolding_all decide,
    c1_short_input_faults_instead_of_passthrough (fun _ => 0) (fun _ => 0)
      contentC1 cfgC1 (by decide) (by decide) (by with_unfolding_all decide)⟩

/-! Pool initialization, worker error handling and warm-up (C2, C3, C4). -/

/-- The counterexample world for C2: every environment-setup step succeeds
and every worker fails to start. -/
def worldC2 : PoolWorld :=
  { mkdirErr := none, extractErr := none, checkPythonErr := none,
    createVenvErr := none, installErr := none,
    startErr := fun _ => some "start process: exec failed" }

/-- Counterexample for C2: with a healthy environment and every one of the
three workers failing to start, `Initialize` still returns success and the
pool is left with no active worker — initialization does not fail and the
pool degrades silently, contradicting the claim. -/
theorem c2_counterexample :
    initializePool worldC2 3 = none ∧ activeWorkers worldC2 3 = [] := by
  constructor
  · rfl
  · rfl

/-- C2 as amended — `Initialize` surfaces only `setupEnvironment` errors;
a worker that fails to launch or to acknowledge readiness is logged inside
its own goroutine and dropped, `Initialize` still returns success, and the
pool silently degrades to the workers whose startup succeeded. -/
theorem c2_amended_silent_degrade (w : PoolWorld) (n i : Nat) (e : String)
    (hsetup : setupEnvironment w = none) (hi : i < n)
    (hfail : w.startErr i = some e) :
    initializePool w n = none ∧ i ∉ activeWorkers w n := by
  constructor
  · simp [initializePool, hsetup]
  · simp [activeWorkers, hfail]

/-- Witness for C2's amended theorem at a concrete world. -/
theorem c2_amended_silent_degrade_witness :
    setupEnvironment worldC2 = none ∧ 1 < 3 ∧
    worldC2.startErr 1 = some "start process: exec failed" ∧
    (initializePool worldC2 3 = none ∧ 1 ∉ activeWorkers worldC2 3) :=
  ⟨rfl, by decide, rfl,
    c2_amended_silent_degrade worldC2 3 1 "start process: exec failed"
      rfl (by decide) rfl⟩

/-- Counterexample for C3: a well-formed response with a non-null error
field on the first task makes that task fail with the error message, but
the worker goroutine exits — the second task is never processed by this
worker, contradicting "the worker remains usable afterwards". -/
theorem c3_counterexample :
    runWorkerTasks [PyLine.parsed [] "boom", PyLine.parsed ["x"] ""] =
      [Except.error "python error: boom"] ∧
    (runWorkerTasks [PyLine.parsed [] "boom", PyLine.parsed ["x"] ""]).length ≠ 2 := by
  constructor
  · rfl
  · decide

/-- C3 as amended — a well-formed response carrying a non-null (non-empty
after JSON unmarshalling) error field makes the task fail with
`python error: <error>`, and the worker goroutine then exits: no subsequent
task is served by this worker, exactly as for protocol errors. -/
theorem c3_amended_worker_exits (tags : List String) (err : String)
    (rest : List PyLine) (herr : err ≠ "") :
    runWorkerTasks (PyLine.parsed tags err :: rest) =
      [Except.error ("python error: " ++ err)] := by
  simp [runWorkerTasks, processTask, herr]

/-- Witness for C3's amended theorem. -/
theorem c3_amended_worker_exits_witness :
    "boom" ≠ "" ∧
    runWorkerTasks (PyLine.parsed ["a"] "boom" ::
        [PyLine.parsed ["b"] "", PyLine.malformed]) =
      [Except.error ("python error: " ++ "boom")] :=
  ⟨by decide,
    c3_amended_worker_exits ["a"] "boom" [PyLine.parsed ["b"] "", PyLine.malformed]
      (by decide)⟩

/-- Counterexample for C4: at pool initialization with three workers, the
number of tasks submitted to the queue is zero, not one per worker — no
warm-up happens during initialization at all. -/
theorem c4_counterexample :
    (enqueuedDuringInit 3).length = 0 ∧ (0 : Nat) ≠ 3 := by
  constructor
  · rfl
  · decide

/-- C4 as amended — pool initialization enqueues no task whatsoever (it
only spawns the worker goroutines); the only synthetic task in the code
base is the one `HealthCheck` submits to the shared queue, with a fixed
three-name tag list rather than the full known tag set, and `HealthCheck`
is not invoked during initialization (neither `Initialize` nor the
`semantic.NewMatcher` factory calls it). -/
theorem c4_amended_no_warmup (n : Nat) :
    enqueuedDuringInit n = [] ∧
    initializeActions n = (List.range n).map PoolAction.spawnWorker ∧
    healthCheckActions =
      [PoolAction.enqueue "test document for health check"
        ["test", "document", "invoice"]] := by
  refine ⟨?_, rfl, rfl⟩
  simp [enqueuedDuringInit, initializeActions, PoolAction.isEnqueue]

/-! Diversity penalty constants (C5). -/

/-- The just-selected chunk of the C5 failing input: six unique tokens. -/
def selC5 : Chunk :=
  { emptyChunk with
    uniqueTokens := [['a'], ['b'], ['c'], ['d'], ['e'], ['f']] }

/-- A remaining chunk of the C5 failing input: seven unique tokens, three
shared with `selC5`, so the Jaccard similarity is 3/10. -/
def remC5 : Chunk :=
  { emptyChunk with
    id := 1, finalScore := 1,
    uniqueTokens := [['a'], ['b'], ['c'], ['x'], ['y'], ['z'], ['w']] }

/-- C5 — code bug: at similarity 3/10 with caller configuration
diversityThreshold = 1/2 and minPenalty = 3/10, the source's penalty pass
(`applyDiversityPenalty`, which hard-codes threshold 0.15 and floor 0.1)
multiplies the remaining chunk's final score by 2/5, whereas the
configuration-driven pass the claim describes leaves the chunk untouched
because 3/10 does not exceed the configured threshold 1/2.  The
`cfg.DiversityThreshold` and `cfg.MinPenalty` fields are loaded from the
environment but never read by `ReduceContent`. -/
theorem c5_penalty_ignores_configuration :
    applyDiversityPenalty selC5 [remC5] = [{ remC5 with finalScore := 2/5 }] ∧
    applyDiversityPenaltySpec (1/2) (3/10) selC5 [remC5] = [remC5] ∧
    ({ remC5 with finalScore := (2 : ℚ)/5 }) ≠ remC5 := by
  refine ⟨?_, ?_, ?_⟩
  · with_unfolding_all decide
  · with_unfolding_all decide
  · with_unfolding_all decide

/-! Tag cache lookup-and-record (C9). -/

lemma gmaa_items_of_notMem (keys : List String) :
    ∀ (c : TagsCache) (now : Nat) (k : String), k ∉ keys →
      ((getMissingAndAdd c keys now).2).items k = c.items k := by
  induction keys with
  | nil => intro c now k _; rfl
  | cons key rest ih =>
    intro c now k hk
    have hne : k ≠ key := fun h => hk (h ▸ List.mem_cons_self key rest)
    have hrest : k ∉ rest := fun h => hk (List.mem_cons_of_mem key h)
    cases hitem : c.items key with
    | none =>
      simp only [getMissingAndAdd, hitem]
      rw [ih _ now k hrest]
      simp [hne]
    | some item =>
      simp only [getMissingAndAdd, hitem]
      rw [ih _ now k hrest]
      simp [hne]

lemma gmaa_items_isSome_mono (keys : List String) :
    ∀ (c : TagsCache) (now : Nat) (k : String), (c.items k).isSome →
      (((getMissingAndAdd c keys now).2).items k).isSome := by
  induction keys with
  | nil => intro c now k h; exact h
  | cons key rest ih =>
    intro c now k h
    cases hitem : c.items key with
    | none =>
      simp only [getMissingAndAdd, hitem]
      apply ih
      by_cases hk : k = key
      · simp [hk]
      · simp [hk, h]
    | some item =>
      simp only [getMissingAndAdd, hitem]
      apply ih
      by_cases hk : k = key
      · simp [hk]
      · simp [hk, h]

lemma gmaa_missing_eq (keys : List String) :
    ∀ (c : TagsCache) (now : Nat), keys.Nodup →
      (getMissingAndAdd c keys now).1 =
        keys.filter (fun k => (c.items k).isNone) := by
  induction keys with
  | nil => intro c now _; rfl
  | cons key rest ih =>
    intro c now hnd
    rw [List.nodup_cons] at hnd
    have hfilter : ∀ (c1 : TagsCache), (∀ k, k ∈ rest → c1.items k = c.items k) →
        rest.filter (fun k => (c1.items k).isNone) =
          rest.filter (fun k => (c.items k).isNone) := by
      intro c1 hsame
      apply List.filter_congr
      intro k hk
      rw [hsame k hk]
    cases hitem : c.items key with
    | none =>
      simp only [getMissingAndAdd, hitem]
      rw [List.filter_cons_of_pos (by simp [hitem])]
      rw [ih _ now hnd.2]
      congr 1
      apply hfilter
      intro k hk
      have hne : k ≠ key := fun h => hnd.1 (h ▸ hk)
      simp [hne]
    | some item =>
      simp only [getMissingAndAdd, hitem]
      rw [List.filter_cons_of_neg (by simp [hitem])]
      rw [ih _ now hnd.2]
      apply hfilter
      intro k hk
      have hne : k ≠ key := fun h => hnd.1 (h ▸ hk)
      simp [hne]

lemma gmaa_missing_length_le (keys : List String) :
    ∀ (c : TagsCache) (now : Nat),
      (getMissingAndAdd c keys now).1.length ≤ keys.length := by
  induction keys with
  | nil => intro c now; simp [getMissingAndAdd]
  | cons key rest ih =>
    intro c now
    cases hitem : c.items key with
    | none =>
      simp only [getMissingAndAdd, hitem, List.length_cons]
      exact Nat.succ_le_succ (ih _ now)
    | some item =>
      simp only [getMissingAndAdd, hitem, List.length_cons]
      exact Nat.le_succ_of_le (ih _ now)

lemma gmaa_misses (keys : List String) :
    ∀ (c : TagsCache) (now : Nat),
      ((getMissingAndAdd c keys now).2).misses =
        c.misses + (getMissingAndAdd c keys now).1.length := by
  induction keys with
  | nil => intro c now; rfl
  | cons key rest ih =>
    intro c now
    cases hitem : c.items key with
    | none =>
      simp only [getMissingAndAdd, hitem, List.length_cons]
      rw [ih]
      dsimp only
      omega
    | some item =>
      simp only [getMissingAndAdd, hitem]
      rw [ih]

lemma gmaa_hits (keys : List String) :
    ∀ (c : TagsCache) (now : Nat),
      ((getMissingAndAdd c keys now).2).hits =
        c.hits + (keys.length - (getMissingAndAdd c keys now).1.length) := by
  induction keys with
  | nil => intro c now; rfl
  | cons key rest ih =>
    intro c now
    cases hitem : c.items key with
    | none =>
      simp only [getMissingAndAdd, hitem, List.length_cons]
      rw [ih]
      dsimp only
      omega
    | some item =>
      simp only [getMissingAndAdd, hitem, List.length_cons]
      rw [ih]
      dsimp only
      have hb := gmaa_missing_length_le rest
        { items := fun k => if k = key then
            some { item with hits := item.hits + 1, lastAccess := now }
          else c.items k,
          hits := c.hits + 1, misses := c.misses } now
      omega

lemma gmaa_inserted (keys : List String) :
    ∀ (c : TagsCache) (now : Nat), keys.Nodup →
      ∀ k, k ∈ keys → c.items k = none →
        ((getMissingAndAdd c keys now).2).items k = some ⟨k, 0, now⟩ := by
  induction keys with
  | nil => intro c now _ k hk; exact absurd hk (List.not_mem_nil k)
  | cons key rest ih =>
    intro c now hnd k hk hnone
    rw [List.nodup_cons] at hnd
    rcases List.mem_cons.mp hk with heq | hmem
    · subst heq
      simp only [getMissingAndAdd, hnone]
      rw [gmaa_items_of_notMem rest _ now k hnd.1]
      simp
    · have hne : k ≠ key := fun h => hnd.1 (h ▸ hmem)
      cases hitem : c.items key with
      | none =>
        simp only [getMissingAndAdd, hitem]
        exact ih _ now hnd.2 k hmem (by simp [hne, hnone])
      | some item =>
        simp only [getMissingAndAdd, hitem]
        exact ih _ now hnd.2 k hmem (by simp [hne, hnone])

lemma gmaa_bumped (keys : List String) :
    ∀ (c : TagsCache) (now : Nat), keys.Nodup →
      ∀ k item, k ∈ keys → c.items k = some item →
        ((getMissingAndAdd c keys now).2).items k =
          some ⟨item.value, item.hits + 1, now⟩ := by
  induction keys with
  | nil => intro c now _ k item hk; exact absurd hk (List.not_mem_nil k)
  | cons key rest ih =>
    intro c now hnd k item hk hsome
    rw [List.nodup_cons] at hnd
    rcases List.mem_cons.mp hk with heq | hmem
    · subst heq
      simp only [getMissingAndAdd, hsome]
      rw [gmaa_items_of_notMem rest _ now k hnd.1]
      simp
    · have hne : k ≠ key := fun h => hnd.1 (h ▸ hmem)
      cases hitem : c.items key with
      | none =>
        simp only [getMissingAndAdd, hitem]
        exact ih _ now hnd.2 k item hmem (by simp [hne, hsome])
      | some it2 =>
        simp only [getMissingAndAdd, hitem]
        exact ih _ now hnd.2 k item hmem (by simp [hne, hsome])

lemma gmaa_all_present (keys : List String) :
    ∀ (c : TagsCache) (now : Nat) (k : String), k ∈ keys →
      (((getMissingAndAdd c keys now).2).items k).isSome := by
  induction keys with
  | nil => intro c now k hk; exact absurd hk (List.not_mem_nil k)
  | cons key rest ih =>
    intro c now k hk
    rcases List.mem_cons.mp hk with heq | hmem
    · subst heq
      cases hitem : c.items k with
      | none =>
        simp only [getMissingAndAdd, hitem]
        apply gmaa_items_isSome_mono
        simp
      | some item =>
        simp only [getMissingAndAdd, hitem]
        apply gmaa_items_isSome_mono
        simp
    · cases hitem : c.items key with
      | none =>
        simp only [getMissingAndAdd, hitem]
        exact ih _ now k hmem
      | some item =>
        simp only [getMissingAndAdd, hitem]
        exact ih _ now k hmem

lemma gmaa_all_hit (keys : List String) :
    ∀ (c : TagsCache) (now : Nat), (∀ k, k ∈ keys → (c.items k).isSome) →
      (getMissingAndAdd c keys now).1 = [] ∧
      ((getMissingAndAdd c keys now).2).misses = c.misses ∧
      ((getMissingAndAdd c keys now).2).hits = c.hits + keys.length := by
  induction keys with
  | nil => intro c now _; exact ⟨rfl, rfl, rfl⟩
  | cons key rest ih =>
    intro c now hall
    have hkey := hall key (List.mem_cons_self key rest)
    cases hitem : c.items key with
    | none => rw [hitem] at hkey; exact absurd hkey (by simp)
    | some item =>
      simp only [getMissingAndAdd, hitem]
      have hrest : ∀ k, k ∈ rest →
          ((⟨fun k2 => if k2 = key then
              some { item with hits := item.hits + 1, lastAccess := now }
            else c.items k2, c.hits + 1, c.misses⟩ : TagsCache).items k).isSome := by
        intro k hk
        by_cases hke : k = key
        · simp [hke]
        · simpa [hke] using hall k (List.mem_cons_of_mem key hk)
      have := ih _ now hrest
      refine ⟨this.1, this.2.1, ?_⟩
      rw [this.2.2]
      simp only [List.length_cons]
      omega

/-- C9 — the cache's lookup-and-record pass returns exactly the names not
yet present (for a duplicate-free name list), inserts them as fresh entries
while counting them as misses, bumps the hit counter of each already-present
name while counting it as a hit, and is idempotent on repetition: a second
call on the same names returns no missing name, adds no miss, and adds one
hit per name. -/
theorem c9_get_missing_and_add (c : TagsCache) (keys : List String)
    (now now2 : Nat) (hnd : keys.Nodup) :
    (getMissingAndAdd c keys now).1 =
      keys.filter (fun k => (c.items k).isNone) ∧
    ((getMissingAndAdd c keys now).2).misses =
      c.misses + (getMissingAndAdd c keys now).1.length ∧
    ((getMissingAndAdd c keys now).2).hits =
      c.hits + (keys.length - (getMissingAndAdd c keys now).1.length) ∧
    (∀ k, k ∈ keys → c.items k = none →
      ((getMissingAndAdd c keys now).2).items k = some ⟨k, 0, now⟩) ∧
    (∀ k item, k ∈ keys → c.items k = some item →
      ((getMissingAndAdd c keys now).2).items k =
        some ⟨item.value, item.hits + 1, now⟩) ∧
    (getMissingAndAdd ((getMissingAndAdd c keys now).2) keys now2).1 = [] ∧
    ((getMissingAndAdd ((getMissingAndAdd c keys now).2) keys now2).2).misses =
      ((getMissingAndAdd c keys now).2).misses ∧
    ((getMissingAndAdd ((getMissingAndAdd c keys now).2) keys now2).2).hits =
      ((getMissingAndAdd c keys now).2).hits + keys.length := by
  have hsecond := gmaa_all_hit keys ((getMissingAndAdd c keys now).2) now2
    (fun k hk => gmaa_all_present keys c now k hk)
  exact ⟨gmaa_missing_eq keys c now hnd, gmaa_misses keys c now,
    gmaa_hits keys c now, gmaa_inserted keys c now hnd,
    gmaa_bumped keys c now hnd, hsecond.1, hsecond.2.1, hsecond.2.2⟩

/-- The concrete cache for the C9 witness: one tag already present. -/
def cacheC9 : TagsCache :=
  { items := fun k => if k = "tax" then some ⟨"tax", 4, 7⟩ else none,
    hits := 10, misses := 5 }

/-- Witness for C9 at a concrete cache and name list. -/
theorem c9_get_missing_and_add_witness :
    (["invoice", "tax"] : List String).Nodup ∧
    ((getMissingAndAdd cacheC9 ["invoice", "tax"] 8).1 =
      (["invoice", "tax"] : List String).filter
        (fun k => (cacheC9.items k).isNone) ∧
    ((getMissingAndAdd cacheC9 ["invoice", "tax"] 8).2).misses =
      cacheC9.misses + (getMissingAndAdd cacheC9 ["invoice", "tax"] 8).1.length ∧
    ((getMissingAndAdd cacheC9 ["invoice", "tax"] 8).2).hits =
      cacheC9.hits +
        ((["invoice", "tax"] : List String).length -
          (getMissingAndAdd cacheC9 ["invoice", "tax"] 8).1.length) ∧
    (∀ k, k ∈ (["invoice", "tax"] : List String) → cacheC9.items k = none →
      ((getMissingAndAdd cacheC9 ["invoice", "tax"] 8).2).items k =
        some ⟨k, 0, 8⟩) ∧
    (∀ k item, k ∈ (["invoice", "tax"] : List String) →
      cacheC9.items k = some item →
      ((getMissingAndAdd cacheC9 ["invoice", "tax"] 8).2).items k =
        some ⟨item.value, item.hits + 1, 8⟩) ∧
    (getMissingAndAdd ((getMissingAndAdd cacheC9 ["invoice", "tax"] 8).2)
      ["invoice", "tax"] 9).1 = [] ∧
    ((getMissingAndAdd ((getMissingAndAdd cacheC9 ["invoice", "tax"] 8).2)
      ["invoice", "tax"] 9).2).misses =
      ((getMissingAndAdd cacheC9 ["invoice", "tax"] 8).2).misses ∧
    ((getMissingAndAdd ((getMissingAndAdd cacheC9 ["invoice", "tax"] 8).2)
      ["invoice", "tax"] 9).2).hits =
      ((getMissingAndAdd cacheC9 ["invoice", "tax"] 8).2).hits +
        (["invoice", "tax"] : List String).length) :=
  ⟨by decide, c9_get_missing_and_add cacheC9 ["invoice", "tax"] 8 9 (by decide)⟩

/-! Diverse selection invariants (C7). -/

/-- The word count the selection loop accumulates: the sum of the selected
chunks' word counts. -/
def sumWC (l : List Chunk) : Nat :=
  (l.map (fun ch => ch.wordCount)).sum

/-- The (id, wordCount) view of a chunk, invariant under score mutation. -/
def idwc (ch : Chunk) : Nat × Nat :=
  (ch.id, ch.wordCount)

lemma sumWC_nil : sumWC [] = 0 := rfl

lemma sumWC_cons (a : Chunk) (l : List Chunk) :
    sumWC (a :: l) = a.wordCount + sumWC l := by
  simp [sumWC]

lemma sumWC_eq_map_idwc (l : List Chunk) :
    sumWC l = ((l.map idwc).map Prod.snd).sum := by
  simp only [sumWC, List.map_map]
  rfl

lemma penalizeOne_eq_update (s c : Chunk) :
    ∃ q, penalizeOne s c = { c with finalScore := q } := by
  unfold penalizeOne
  by_cases h : (15 : ℚ)/100 < jaccardSimilarity s.uniqueTokens c.uniqueTokens
  · simp only [h, if_true]
    exact ⟨_, rfl⟩
  · simp only [h, if_false]
    exact ⟨c.finalScore, rfl⟩

lemma penalizeOne_idwc (s c : Chunk) : idwc (penalizeOne s c) = idwc c := by
  obtain ⟨q, hq⟩ := penalizeOne_eq_update s c
  rw [hq]
  rfl

lemma applyDiversityPenalty_map_idwc (s : Chunk) (l : List Chunk) :
    (applyDiversityPenalty s l).map idwc = l.map idwc := by
  unfold applyDiversityPenalty
  rw [List.map_map]
  exact List.map_congr_left (fun c _ => penalizeOne_idwc s c)

lemma applyDiversityPenalty_length (s : Chunk) (l : List Chunk) :
    (applyDiversityPenalty s l).length = l.length := by
  simp [applyDiversityPenalty]

lemma sortByScore_perm (l : List Chunk) : (sortByScore l).Perm l :=
  List.perm_insertionSort _ _

lemma sortByScore_length (l : List Chunk) :
    (sortByScore l).length = l.length :=
  List.length_insertionSort _ _

lemma sortByScore_map_idwc_perm (l : List Chunk) :
    ((sortByScore l).map idwc).Perm (l.map idwc) :=
  (sortByScore_perm l).map idwc

/-- Invariant of the selection loop: the selection only grows, the
accumulated count is the initial count plus the word counts of the newly
taken chunks, and on exit either the target is met or every remaining chunk
was taken (up to score mutation: their (id, wordCount) views are a
permutation of the remaining chunks'). -/
lemma selectLoopFuel_spec (t : Nat) :
    ∀ (fuel : Nat) (rem : List Chunk), rem.length = fuel →
      ∀ (sel : List Chunk) (cur : Nat),
      ∃ extra,
        (selectLoopFuel t fuel rem sel cur).1 = sel ++ extra ∧
        (selectLoopFuel t fuel rem sel cur).2 = cur + sumWC extra ∧
        (t ≤ (selectLoopFuel t fuel rem sel cur).2 ∨
          (extra.map idwc).Perm (rem.map idwc)) := by
  intro fuel
  induction fuel with
  | zero =>
    intro rem hlen sel cur
    have hnil : rem = [] := List.eq_nil_of_length_eq_zero hlen
    subst hnil
    exact ⟨[], by simp [selectLoopFuel], by simp [selectLoopFuel, sumWC_nil],
      Or.inr (by simp)⟩
  | succ n ih =>
    intro rem hlen sel cur
    cases rem with
    | nil =>
      exact ⟨[], by simp [selectLoopFuel], by simp [selectLoopFuel, sumWC_nil],
        Or.inr (by simp)⟩
    | cons r rest =>
      by_cases hcur : cur < t
      · have hstep : selectLoopFuel t (n + 1) (r :: rest) sel cur =
            selectLoopFuel t n (sortByScore (applyDiversityPenalty r rest))
              (sel ++ [r]) (cur + r.wordCount) := by
          simp [selectLoopFuel, hcur]
        have hlen2 : (sortByScore (applyDiversityPenalty r rest)).length = n := by
          rw [sortByScore_length, applyDiversityPenalty_length]
          simpa using hlen
        obtain ⟨extra2, h1, h2, h3⟩ :=
          ih (sortByScore (applyDiversityPenalty r rest)) hlen2
            (sel ++ [r]) (cur + r.wordCount)
        refine ⟨r :: extra2, ?_, ?_, ?_⟩
        · rw [hstep, h1]
          simp
        · rw [hstep, h2, sumWC_cons]
          omega
        · rcases h3 with h3 | h3
          · left
            rw [hstep]
            exact h3
          · right
            have hperm : (extra2.map idwc).Perm (rest.map idwc) := by
              have h4 := sortByScore_map_idwc_perm (applyDiversityPenalty r rest)
              rw [applyDiversityPenalty_map_idwc] at h4
              exact h3.trans h4
            simpa using hperm.cons (idwc r)
      · refine ⟨[], ?_, ?_, Or.inl ?_⟩
        · simp [selectLoopFuel, hcur]
        · simp [selectLoopFuel, hcur, sumWC_nil]
        · simp [selectLoopFuel, hcur]
          omega

/-- C7 — in every reduction run with at least one chunk, the Diverse
Selector keeps chunk 0 (the head chunk) in the selection, and the word
count it accumulates (the sum of the selected chunks' word counts) reaches
the target budget, except when the total word count of all chunks is below
the target, in which case every chunk is selected (the selected ids are a
permutation of all chunk ids). -/
theorem c7_diverse_selector (chunks : List Chunk) (t : Nat)
    (c0 : Chunk) (rest : List Chunk) (h : chunks = c0 :: rest) :
    ∃ sel, selectChunks chunks t = some sel ∧ c0 ∈ sel ∧
      (t ≤ sumWC sel ∨
        (sumWC chunks < t ∧ (sel.map Chunk.id).Perm (chunks.map Chunk.id))) := by
  subst h
  obtain ⟨extra, h1, h2, h3⟩ :=
    selectLoopFuel_spec t (sortByScore rest).length (sortByScore rest) rfl
      [c0] c0.wordCount
  set out := selectLoopFuel t (sortByScore rest).length (sortByScore rest)
    [c0] c0.wordCount with hout
  refine ⟨out.1, rfl, ?_, ?_⟩
  · rw [h1]
    exact List.mem_append_left _ (List.mem_singleton_self c0)
  · have hsum : sumWC out.1 = out.2 := by
      rw [h1, h2]
      simp [sumWC_cons, sumWC]
    rcases h3 with h3 | h3
    · left
      rw [hsum]
      exact h3
    · have hperm : (out.1.map idwc).Perm ((c0 :: rest).map idwc) := by
        rw [h1]
        have hextra : (extra.map idwc).Perm (rest.map idwc) :=
          h3.trans (sortByScore_map_idwc_perm rest)
        simpa using hextra.cons (idwc c0)
      have hsumall : sumWC out.1 = sumWC (c0 :: rest) := by
        rw [sumWC_eq_map_idwc, sumWC_eq_map_idwc (c0 :: rest)]
        exact (hperm.map Prod.snd).sum_eq
      by_cases htle : t ≤ sumWC out.1
      · exact Or.inl htle
      · refine Or.inr ⟨?_, ?_⟩
        · rw [← hsumall]
          omega
        · have := hperm.map Prod.fst
          simpa [List.map_map, idwc, Function.comp] using this

/-- The two chunks of the C7 witness. -/
def chunkC7a : Chunk := { emptyChunk with id := 0, wordCount := 2 }

def chunkC7b : Chunk := { emptyChunk with id := 1, wordCount := 2 }

/-- Witness for C7 at a concrete two-chunk run. -/
theorem c7_diverse_selector_witness :
    ∃ sel, selectChunks [chunkC7a, chunkC7b] 3 = some sel ∧ chunkC7a ∈ sel ∧
      (3 ≤ sumWC sel ∨
        (sumWC [chunkC7a, chunkC7b] < 3 ∧
          (sel.map Chunk.id).Perm
            (([chunkC7a, chunkC7b] : List Chunk).map Chunk.id))) :=
  c7_diverse_selector [chunkC7a, chunkC7b] 3 chunkC7a [chunkC7b] rfl

/-! Splitter lemmas shared by the reconstruction and cleanup claims. -/

/-- A well-formed word as produced by `strings.Fields`: non-empty and free
of whitespace. -/
def wfWord (w : Word) : Prop :=
  w ≠ [] ∧ ∀ c ∈ w, isSpace c = false

instance : DecidablePred wfWord := fun w => by
  unfold wfWord
  infer_instance

lemma splitRunsAux_break (keep : Char → Bool) (c : Char) (hc : keep c = false) :
    ∀ (a : List Char) (acc : Word) (b : List Char),
      splitRunsAux keep (a ++ c :: b) acc =
        splitRunsAux keep a acc ++ splitRunsAux keep b [] := by
  intro a
  induction a with
  | nil =>
    intro acc b
    by_cases hacc : acc.isEmpty <;>
      simp [splitRunsAux, hc, hacc]
  | cons x xs ih =>
    intro acc b
    by_cases hx : keep x
    · simp [splitRunsAux, hx, ih]
    · by_cases hacc : acc.isEmpty <;>
        simp [splitRunsAux, hx, hacc, ih]

lemma splitRunsAux_keepAll (keep : Char → Bool) :
    ∀ (w : Word), (∀ x ∈ w, keep x = true) →
      ∀ (s : List Char) (acc : Word),
        splitRunsAux keep (w ++ s) acc =
          splitRunsAux keep s (w.reverse ++ acc) := by
  intro w
  induction w with
  | nil => intro _ s acc; simp
  | cons x xs ih =>
    intro hw s acc
    have hx : keep x = true := hw x (List.mem_cons_self x xs)
    simp only [List.cons_append, splitRunsAux, hx, if_true]
    show splitRunsAux keep (xs ++ s) (x :: acc) =
      splitRunsAux keep s ((x :: xs).reverse ++ acc)
    rw [ih (fun y hy => hw y (List.mem_cons_of_mem _ hy)) s]
    simp

lemma splitRuns_single (keep : Char → Bool) (w : Word) (hne : w ≠ [])
    (hw : ∀ x ∈ w, keep x = true) : splitRuns keep w = [w] := by
  unfold splitRuns
  have h1 := splitRunsAux_keepAll keep w hw [] []
  rw [List.append_nil] at h1
  rw [h1]
  have h2 : (w.reverse ++ []).isEmpty = false := by
    simp [List.isEmpty_iff, hne]
  simp [splitRunsAux, h2, hne]

lemma fields_join_space (ws : List Word) (hwf : ∀ w ∈ ws, wfWord w) :
    fields (joinSep ' ' ws) = ws := by
  induction ws with
  | nil => rfl
  | cons w rest ih =>
    have hw := hwf w (List.mem_cons_self w rest)
    have hkeep : ∀ x ∈ w, (!isSpace x) = true := by
      intro x hx
      simp [hw.2 x hx]
    cases rest with
    | nil =>
      show fields (joinSep ' ' [w]) = [w]
      simp only [joinSep]
      exact splitRuns_single _ w hw.1 hkeep
    | cons w2 rest2 =>
      have hrest : fields (joinSep ' ' (w2 :: rest2)) = w2 :: rest2 :=
        ih (fun u hu => hwf u (List.mem_cons_of_mem _ hu))
      show splitRunsAux (fun c => !isSpace c)
        (w ++ ' ' :: joinSep ' ' (w2 :: rest2)) [] = w :: w2 :: rest2
      rw [splitRunsAux_break _ ' ' (by decide) w []]
      have hsingle : splitRunsAux (fun c => !isSpace c) w [] = [w] :=
        splitRuns_single _ w hw.1 hkeep
      have hrest2 : splitRunsAux (fun c => !isSpace c)
          (joinSep ' ' (w2 :: rest2)) [] = w2 :: rest2 := hrest
      rw [hsingle, hrest2]
      rfl

/-- Fields of a reconstruction-shaped text: the leading word list joined by
spaces, followed by one newline-prefixed space-joined group per later chunk,
splits back into exactly the concatenation of the groups. -/
lemma fields_reconstruct (wss : List (List Word)) :
    ∀ (ws0 : List Word), (∀ w ∈ ws0, wfWord w) →
      (∀ ws ∈ wss, ∀ w ∈ ws, wfWord w) →
      fields (joinSep ' ' ws0 ++
        wss.flatMap (fun ws => '\n' :: joinSep ' ' ws)) =
        ws0 ++ wss.flatten := by
  induction wss with
  | nil =>
    intro ws0 h0 _
    simp [fields_join_space ws0 h0]
  | cons ws more ih =>
    intro ws0 h0 hss
    have hstep : joinSep ' ' ws0 ++
        ((ws :: more).flatMap (fun u => '\n' :: joinSep ' ' u)) =
        joinSep ' ' ws0 ++ '\n' ::
          (joinSep ' ' ws ++ more.flatMap (fun u => '\n' :: joinSep ' ' u)) := by
      rw [List.flatMap_cons]
      simp
    rw [hstep]
    show splitRunsAux (fun c => !isSpace c)
      (joinSep ' ' ws0 ++ '\n' ::
        (joinSep ' ' ws ++ more.flatMap (fun u => '\n' :: joinSep ' ' u))) [] = _
    rw [splitRunsAux_break _ '\n' (by decide) (joinSep ' ' ws0) []]
    have h1 : splitRunsAux (fun c => !isSpace c) (joinSep ' ' ws0) [] = ws0 :=
      fields_join_space ws0 h0
    have h2 : splitRunsAux (fun c => !isSpace c)
        (joinSep ' ' ws ++ more.flatMap (fun u => '\n' :: joinSep ' ' u)) [] =
        ws ++ more.flatten :=
      ih ws (hss ws (List.mem_cons_self ws more))
        (fun u hu => hss u (List.mem_cons_of_mem _ hu))
    rw [h1, h2]
    simp

lemma sortById_perm (l : List Chunk) : (sortById l).Perm l :=
  List.perm_insertionSort _ _

/-- C8 — reconstruction of a non-empty selection: after sorting by chunk
id, the output is the first chunk's full text followed, for each later
chunk, by a line break and its words beyond the first `overlap`; the
reassembled text's word count is the first chunk's word count plus the sum
of (word count − overlap) over the later chunks.  The hypotheses state what
holds of every chunk the pipeline builds: words are non-empty and
whitespace-free, the raw text is the space-joined word list, and the word
count is the length of the word list. -/
theorem c8_reconstruction (selected : List Chunk) (ov : Nat)
    (hne : selected ≠ [])
    (hwf : ∀ ch ∈ selected,
      (∀ w ∈ ch.words, wfWord w) ∧
      ch.rawText = joinSep ' ' ch.words ∧
      ch.wordCount = ch.words.length) :
    ∃ c0 rest out, sortById selected = c0 :: rest ∧
      reconstructContent selected ov = some out ∧
      (fields out).length =
        c0.wordCount + (rest.map (fun ch => ch.wordCount - ov)).sum := by
  have hperm := sortById_perm selected
  have hsne : sortById selected ≠ [] := by
    intro hcon
    exact hne (List.eq_nil_of_length_eq_zero
      (by rw [← hperm.length_eq, hcon]; rfl))
  obtain ⟨c0, rest, hsort⟩ : ∃ c0 rest, sortById selected = c0 :: rest := by
    cases hs : sortById selected with
    | nil => exact absurd hs hsne
    | cons a b => exact ⟨a, b, rfl⟩
  have hwfs : ∀ ch ∈ sortById selected,
      (∀ w ∈ ch.words, wfWord w) ∧
      ch.rawText = joinSep ' ' ch.words ∧
      ch.wordCount = ch.words.length :=
    fun ch hch => hwf ch (hperm.mem_iff.mp hch)
  have hc0 := hwfs c0 (hsort ▸ List.mem_cons_self c0 rest)
  refine ⟨c0, rest,
    c0.rawText ++ rest.flatMap (fun ch => '\n' :: joinSep ' ' (ch.words.drop ov)),
    hsort, ?_, ?_⟩
  · unfold reconstructContent
    rw [hsort]
  · have hmap : rest.flatMap (fun ch => '\n' :: joinSep ' ' (ch.words.drop ov)) =
        (rest.map (fun ch => ch.words.drop ov)).flatMap
          (fun ws => '\n' :: joinSep ' ' ws) := by
      rw [List.flatMap_map]
    have hrestwf : ∀ ws ∈ rest.map (fun ch => ch.words.drop ov),
        ∀ w ∈ ws, wfWord w := by
      intro ws hws w hw
      obtain ⟨ch, hch, rfl⟩ := List.mem_map.mp hws
      have hchm := hwfs ch (hsort ▸ List.mem_cons_of_mem c0 hch)
      exact hchm.1 w (List.drop_subset ov ch.words hw)
    rw [hc0.2.1, hmap,
      fields_reconstruct _ c0.words hc0.1 hrestwf]
    rw [List.length_append, List.length_flatten, hc0.2.2]
    congr 1
    rw [List.map_map]
    apply congrArg
    apply List.map_congr_left
    intro ch hch
    have hchm := hwfs ch (hsort ▸ List.mem_cons_of_mem c0 hch)
    simp [Function.comp, List.length_drop, hchm.2.2]

/-- The chunks of the C8 witness: two two-word chunks overlapping in one
word. -/
def chunkC8a : Chunk :=
  { emptyChunk with
    id := 0
    words := [['a', 'b'], ['c']]
    rawText := ['a', 'b', ' ', 'c']
    wordCount := 2 }

def chunkC8b : Chunk :=
  { emptyChunk with
    id := 1
    words := [['c'], ['d']]
    rawText := ['c', ' ', 'd']
    wordCount := 2 }

/-- Witness for C8 at a concrete two-chunk selection with overlap 1. -/
theorem c8_reconstruction_witness :
    ([chunkC8b, chunkC8a] : List Chunk) ≠ [] ∧
    ∃ c0 rest out, sortById [chunkC8b, chunkC8a] = c0 :: rest ∧
      reconstructContent [chunkC8b, chunkC8a] 1 = some out ∧
      (fields out).length =
        c0.wordCount + (rest.map (fun ch => ch.wordCount - 1)).sum :=
  ⟨by decide,
    c8_reconstruction [chunkC8b, chunkC8a] 1 (by decide) (by decide)⟩

/-! Character provenance through the pipeline (C10). -/

lemma splitRunsAux_chars (keep : Char → Bool) :
    ∀ (s : List Char) (acc : Word) (f : Word),
      f ∈ splitRunsAux keep s acc → ∀ c ∈ f, c ∈ s ∨ c ∈ acc := by
  intro s
  induction s with
  | nil =>
    intro acc f hf c hc
    by_cases hacc : acc.isEmpty
    · simp [splitRunsAux, hacc] at hf
    · simp [splitRunsAux, hacc] at hf
      subst hf
      right
      exact List.mem_reverse.mp hc
  | cons x xs ih =>
    intro acc f hf c hc
    by_cases hx : keep x
    · simp only [splitRunsAux, hx, if_true] at hf
      rcases ih (x :: acc) f hf c hc with h | h
      · exact Or.inl (List.mem_cons_of_mem x h)
      · rcases List.mem_cons.mp h with h2 | h2
        · exact Or.inl (h2 ▸ List.mem_cons_self x xs)
        · exact Or.inr h2
    · by_cases hacc : acc.isEmpty
      · simp only [splitRunsAux, hx, if_false, hacc, if_true] at hf
        rcases ih [] f hf c hc with h | h
        · exact Or.inl (List.mem_cons_of_mem x h)
        · exact absurd h (List.not_mem_nil c)
      · simp only [splitRunsAux, hx, if_false, hacc] at hf
        rcases List.mem_cons.mp hf with h2 | h2
        · subst h2
          exact Or.inr (List.mem_reverse.mp hc)
        · rcases ih [] f h2 c hc with h | h
          · exact Or.inl (List.mem_cons_of_mem x h)
          · exact absurd h (List.not_mem_nil c)

lemma fields_chars {s : List Char} {f : Word} (hf : f ∈ fields s)
    {c : Char} (hc : c ∈ f) : c ∈ s := by
  rcases splitRunsAux_chars _ s [] f hf c hc with h | h
  · exact h
  · exact absurd h (List.not_mem_nil c)

lemma joinSep_chars (sep : Char) :
    ∀ (ws : List Word) (c : Char), c ∈ joinSep sep ws →
      (∃ w ∈ ws, c ∈ w) ∨ c = sep := by
  intro ws
  induction ws with
  | nil => intro c hc; exact absurd hc (List.not_mem_nil c)
  | cons w rest ih =>
    intro c hc
    cases rest with
    | nil =>
      exact Or.inl ⟨w, List.mem_cons_self w [], hc⟩
    | cons w2 rest2 =>
      rcases List.mem_append.mp hc with h | h
      · exact Or.inl ⟨w, List.mem_cons_self w _, h⟩
      · rcases List.mem_cons.mp h with h2 | h2
        · exact Or.inr h2
        · rcases ih c h2 with ⟨u, hu, hcu⟩ | h3
          · exact Or.inl ⟨u, List.mem_cons_of_mem w hu, hcu⟩
          · exact Or.inr h3

lemma cleanUp_not_banned {s : List Char} {c : Char} (hc : c ∈ cleanUp s) :
    bannedChars.contains c = false := by
  unfold cleanUp at hc
  have := (List.mem_filter.mp hc).2
  simpa using this

/-- Provenance predicate: every word of the chunk comes from the cleaned
word array, and the raw text is the space-join of the chunk's words. -/
def chunkClean (wa : List Word) (ch : Chunk) : Prop :=
  (∀ w ∈ ch.words, w ∈ wa) ∧ ch.rawText = joinSep ' ' ch.words

lemma createChunks_clean (wa : List Word) (C O : Nat) :
    ∀ ch ∈ createChunks wa C O, chunkClean wa ch := by
  intro ch hch
  unfold createChunks at hch
  obtain ⟨i, _, rfl⟩ := List.mem_map.mp hch
  constructor
  · intro w hw
    exact List.drop_subset _ wa (List.take_subset _ _ hw)
  · rfl

lemma tfScores_clean (wa : List Word) (l : ℚ → ℚ) (cs : List Chunk)
    (hP : ∀ ch ∈ cs, chunkClean wa ch) :
    ∀ ch ∈ tfScores l cs, chunkClean wa ch := by
  intro ch hch
  unfold tfScores at hch
  obtain ⟨y, hy, rfl⟩ := List.mem_map.mp hch
  obtain ⟨z, hz, rfl⟩ := List.mem_map.mp hy
  exact hP z hz

lemma calculateGraphScores_clean (wa : List Word) (cs : List Chunk)
    (hP : ∀ ch ∈ cs, chunkClean wa ch) :
    ∀ ch ∈ calculateGraphScores cs, chunkClean wa ch := by
  intro ch hch
  unfold calculateGraphScores at hch
  have hbase : ∀ x ∈ (List.range cs.length).map (fun i =>
      { cs.getD i emptyChunk with
        graphScore := (weightedPageRank (buildAdjacency cs) (85/100) 100
          (1/10000)).getD i 0 }), chunkClean wa x := by
    intro x hx
    obtain ⟨i, hi, rfl⟩ := List.mem_map.mp hx
    have hilt : i < cs.length := List.mem_range.mp hi
    have hmem : cs.getD i emptyChunk ∈ cs := by
      rw [List.getD_eq_getElem cs emptyChunk hilt]
      exact List.getElem_mem hilt
    exact hP (cs.getD i emptyChunk) hmem
  by_cases hpos : (0 : ℚ) <
      (((List.range cs.length).map (fun i =>
        { cs.getD i emptyChunk with
          graphScore := (weightedPageRank (buildAdjacency cs) (85/100) 100
            (1/10000)).getD i 0 })).map (fun ch => ch.graphScore)).sum
  · simp only [hpos, if_true] at hch
    obtain ⟨y, hy, rfl⟩ := List.mem_map.mp hch
    exact hbase y hy
  · simp only [hpos, if_false] at hch
    exact hbase ch hch

lemma calculateFinalScore_clean (wa : List Word) (g : ℚ → ℚ)
    (cs : List Chunk) (w1 w2 w3 : ℚ)
    (hP : ∀ ch ∈ cs, chunkClean wa ch) :
    ∀ ch ∈ calculateFinalScore g cs w1 w2 w3, chunkClean wa ch := by
  intro ch hch
  unfold calculateFinalScore at hch
  obtain ⟨y, hy, rfl⟩ := List.mem_map.mp hch
  exact hP y hy

lemma penalizeOne_clean (wa : List Word) (s c : Chunk)
    (hc : chunkClean wa c) : chunkClean wa (penalizeOne s c) := by
  obtain ⟨q, hq⟩ := penalizeOne_eq_update s c
  rw [hq]
  exact hc

lemma selectLoopFuel_clean (wa : List Word) (t : Nat) :
    ∀ (fuel : Nat) (rem sel : List Chunk) (cur : Nat),
      (∀ ch ∈ sel, chunkClean wa ch) → (∀ ch ∈ rem, chunkClean wa ch) →
      ∀ ch ∈ (selectLoopFuel t fuel rem sel cur).1, chunkClean wa ch := by
  intro fuel
  induction fuel with
  | zero =>
    intro rem sel cur hsel hrem ch hch
    cases rem with
    | nil => exact hsel ch hch
    | cons r rest => exact hsel ch hch
  | succ n ih =>
    intro rem sel cur hsel hrem ch hch
    cases rem with
    | nil => exact hsel ch hch
    | cons r rest =>
      by_cases hcur : cur < t
      · simp only [selectLoopFuel, hcur, if_true] at hch
        refine ih _ _ _ ?_ ?_ ch hch
        · intro x hx
          rcases List.mem_append.mp hx with h | h
          · exact hsel x h
          · rw [List.mem_singleton.mp h]
            exact hrem r (List.mem_cons_self r rest)
        · intro x hx
          have hx2 : x ∈ applyDiversityPenalty r rest :=
            (sortByScore_perm _).mem_iff.mp hx
          obtain ⟨z, hz, rfl⟩ := List.mem_map.mp hx2
          exact penalizeOne_clean wa r z (hrem z (List.mem_cons_of_mem r hz))
      · simp only [selectLoopFuel, hcur, if_false] at hch
        exact hsel ch hch

lemma selectChunks_clean (wa : List Word) (cs : List Chunk) (t : Nat)
    (hP : ∀ ch ∈ cs, chunkClean wa ch) (sel : List Chunk)
    (hsel : selectChunks cs t = some sel) :
    ∀ ch ∈ sel, chunkClean wa ch := by
  cases cs with
  | nil => exact absurd hsel (by simp [selectChunks])
  | cons c0 rest =>
    have hsel2 : sel = (selectLoop t (sortByScore rest) [c0] c0.wordCount).1 := by
      simpa [selectChunks] using hsel.symm
    rw [hsel2]
    apply selectLoopFuel_clean wa t _ _ _ _
    · intro x hx
      rw [List.mem_singleton.mp hx]
      exact hP c0 (List.mem_cons_self c0 rest)
    · intro x hx
      exact hP x (List.mem_cons_of_mem c0 ((sortByScore_perm rest).mem_iff.mp hx))

lemma reconstructContent_chars (wa : List Word) (selected : List Chunk)
    (ov : Nat) (hP : ∀ ch ∈ selected, chunkClean wa ch) (out : List Char)
    (h : reconstructContent selected ov = some out) :
    ∀ c ∈ out, (∃ w ∈ wa, c ∈ w) ∨ c = ' ' ∨ c = '\n' := by
  have hPs : ∀ ch ∈ sortById selected, chunkClean wa ch :=
    fun ch hch => hP ch ((sortById_perm selected).mem_iff.mp hch)
  unfold reconstructContent at h
  cases hs : sortById selected with
  | nil => rw [hs] at h; exact absurd h (by simp)
  | cons c0 rest =>
    rw [hs] at h
    have hout : out = c0.rawText ++
        rest.flatMap (fun ch => '\n' :: joinSep ' ' (ch.words.drop ov)) := by
      simpa using h.symm
    subst hout
    intro c hc
    have hc0 : chunkClean wa c0 := hPs c0 (hs ▸ List.mem_cons_self c0 rest)
    rcases List.mem_append.mp hc with h1 | h1
    · rw [hc0.2] at h1
      rcases joinSep_chars ' ' c0.words c h1 with ⟨w, hw, hcw⟩ | h2
      · exact Or.inl ⟨w, hc0.1 w hw, hcw⟩
      · exact Or.inr (Or.inl h2)
    · obtain ⟨ch, hch, hcin⟩ := List.mem_flatMap.mp h1
      have hchP : chunkClean wa ch := hPs ch (hs ▸ List.mem_cons_of_mem c0 hch)
      rcases List.mem_cons.mp hcin with h2 | h2
      · exact Or.inr (Or.inr h2)
      · rcases joinSep_chars ' ' (ch.words.drop ov) c h2 with ⟨w, hw, hcw⟩ | h3
        · exact Or.inl ⟨w, hchP.1 w (List.drop_subset ov ch.words hw), hcw⟩
        · exact Or.inr (Or.inl h3)

lemma reduceContent_chars (l g : ℚ → ℚ) (content : List Char)
    (cfg : ReductionConfig) (out : List Char)
    (h : reduceContent l g content cfg = some out) :
    ∀ c ∈ out, c ∈ cleanUp content ∨ c = ' ' ∨ c = '\n' := by
  have h2 : (match selectChunks (calculateFinalScore g
      (calculateGraphScores (tfScores l (createChunks (fields (cleanUp content))
        cfg.chunkSize cfg.overlap)))
      cfg.tfWeight cfg.graphWeight cfg.positionWeight) cfg.targetWords with
    | none => (none : Option (List Char))
    | some selected => reconstructContent selected cfg.overlap) = some out := h
  set wa := fields (cleanUp content) with hwa
  set cs3 := calculateFinalScore g
    (calculateGraphScores (tfScores l (createChunks wa cfg.chunkSize cfg.overlap)))
    cfg.tfWeight cfg.graphWeight cfg.positionWeight with hcs3
  have hP3 : ∀ ch ∈ cs3, chunkClean wa ch := by
    apply calculateFinalScore_clean
    apply calculateGraphScores_clean
    apply tfScores_clean
    exact createChunks_clean wa cfg.chunkSize cfg.overlap
  cases hsel : selectChunks cs3 cfg.targetWords with
  | none => rw [hsel] at h2; exact absurd h2 (by simp)
  | some selected =>
    rw [hsel] at h2
    have hPsel := selectChunks_clean wa cs3 cfg.targetWords hP3 selected hsel
    intro c hc
    rcases reconstructContent_chars wa selected cfg.overlap hPsel out h2 c hc with
      ⟨w, hw, hcw⟩ | hsep
    · exact Or.inl (fields_chars hw hcw)
    · exact Or.inr hsep

/-- C10 — both the reduction decision and the reduction operate on the
cleaned text: the token estimate counts the words of the cleaned text, and
every character of a successful reduction's output comes from the cleaned
text or is one of the two separators the reconstruction inserts, so no
banned character ever appears in reduced output. -/
theorem c10_pipeline_operates_on_cleaned_text (l g : ℚ → ℚ)
    (content : List Char) (cfg : ReductionConfig) :
    estimateTokens content =
      estimateTokensFromWords ((fields (cleanUp content)).length) ∧
    ∀ out, reduceContent l g content cfg = some out →
      (∀ c ∈ out, c ∈ cleanUp content ∨ c = ' ' ∨ c = '\n') ∧
      (∀ c ∈ out, bannedChars.contains c = false) := by
  refine ⟨rfl, ?_⟩
  intro out hout
  have hchars := reduceContent_chars l g content cfg out hout
  refine ⟨hchars, ?_⟩
  intro c hc
  rcases hchars c hc with h | h | h
  · exact cleanUp_not_banned h
  · subst h; decide
  · subst h; decide

/-- The concrete input of the C10 witness. -/
def contentC10 : List Char := ['a', ' ', 'b', ' ', 'c']

/-- The configuration of the C10 witness: three-word chunks with one word
of overlap. -/
def cfgC10 : ReductionConfig :=
  { thresholdTokens := 1, chunkSize := 3, overlap := 1, targetWords := 5,
    tfWeight := 2/5, graphWeight := 2/5, positionWeight := 1/5,
    diversityThreshold := 3/20, minPenalty := 1/10 }

/-- Witness for C10: on a concrete input the reduction succeeds and the
theorem's conclusions hold at that output. -/
theorem c10_pipeline_operates_on_cleaned_text_witness :
    reduceContent (fun _ => 0) (fun _ => 0) contentC10 cfgC10 =
      some ['a', ' ', 'b', ' ', 'c'] ∧
    ((∀ c ∈ (['a', ' ', 'b', ' ', 'c'] : List Char),
        c ∈ cleanUp contentC10 ∨ c = ' ' ∨ c = '\n') ∧
      (∀ c ∈ (['a', ' ', 'b', ' ', 'c'] : List Char),
        bannedChars.contains c = false)) := by
  have heval : reduceContent (fun _ => 0) (fun _ => 0) contentC10 cfgC10 =
      some ['a', ' ', 'b', ' ', 'c'] := by
    with_unfolding_all rfl
  exact ⟨heval,
    (c10_pipeline_operates_on_cleaned_text (fun _ => 0) (fun _ => 0)
      contentC10 cfgC10).2 ['a', ' ', 'b', ' ', 'c'] heval⟩

end Itzamna
